import Mathlib

/-!
Verification model of the PDF scraping pipeline in `main.go` of the
nclonline-com-documentation repository.

Strings are modelled as `List Char`.  The Go source operates on UTF-8
`string`s; every constant and every character class appearing in the
program is ASCII, where Go runes and Lean `Char`s agree, so the models
below are faithful on all inputs that matter (the one deliberate
approximation, `lowerChar`, is documented at its definition).

Filesystem state is modelled as an association list from paths to file
contents, and the HTTP side as an oracle function supplied explicitly to
each operation that performs network I/O in the Go code.
-/

/-- Coerce a Lean string literal to the `List Char` representation used
throughout this development. -/
def str (s : String) : List Char := s.data

/-! ## Character classes used by `urlToFilename` -/

/-- The character class `[a-z0-9]` of the regex in `urlToFilename`
(`main.go:127`), expressed on code points. -/
def isAz09 (c : Char) : Bool :=
  (97 ≤ c.toNat && c.toNat ≤ 122) || (48 ≤ c.toNat && c.toNat ≤ 57)

/-- Characters that can occur in a sanitized stem: `[a-z0-9]` or `'_'`. -/
def az09u (c : Char) : Bool := isAz09 c || c == '_'

/-- `strings.ToLower` on one character, restricted to ASCII
(`'A'..'Z'` maps to `'a'..'z'`, everything else is fixed).  Go lowercases
all of Unicode; the later sanitizer stages replace every non-`[a-z0-9]`
character by `'_'`, so the difference is invisible to `urlToFilename`
except for the handful of non-ASCII code points whose lowercase form is
ASCII, which the claims never involve. -/
def lowerChar (c : Char) : Char :=
  if 65 ≤ c.toNat ∧ c.toNat ≤ 90 then Char.ofNat (c.toNat + 32) else c

/-- `strings.ToLower` (`main.go:124`), ASCII-faithful. -/
def toLowerGo (l : List Char) : List Char := l.map lowerChar

/-! ## `getFilename` = `filepath.Base` (`main.go:107`) -/

/-- Everything after the last `'/'` of a list (the whole list when no
`'/'` occurs). -/
def afterLastSlash (l : List Char) : List Char :=
  ((l.reverse.takeWhile (fun c => c ≠ '/')).reverse)

/-- Strip trailing `'/'` characters. -/
def stripTrailSlashes (l : List Char) : List Char :=
  (l.reverse.dropWhile (fun c => c = '/')).reverse

/-- `filepath.Base` on Unix as used by `getFilename` (`main.go:107`):
empty path gives `"."`; otherwise trailing separators are removed; a path
of only separators gives `"/"`; otherwise everything after the final
separator is returned. -/
def getFilename (l : List Char) : List Char :=
  if l = [] then ['.']
  else
    let q := stripTrailSlashes l
    if q = [] then ['/'] else afterLastSlash q

/-! ## The sanitizer pipeline of `urlToFilename` (`main.go:123`) -/

/-- One character of the regex replacement
`[^a-z0-9]` ↦ `"_"` (`main.go:127-128`). -/
def nonAlnumChar (c : Char) : Char := if isAz09 c then c else '_'

/-- `regexp.MustCompile("[^a-z0-9]").ReplaceAllString(lower, "_")`
(`main.go:128`). -/
def mapNonAlnum (l : List Char) : List Char := l.map nonAlnumChar

/-- `regexp.MustCompile("_+").ReplaceAllString(safe, "_")`
(`main.go:130`): every maximal run of underscores is collapsed to a
single underscore.  The boolean argument records whether the previous
emitted character was an underscore of the current run. -/
def collapseGo (prevU : Bool) : List Char → List Char
  | [] => []
  | c :: rest =>
    if c = '_' then
      if prevU then collapseGo true rest else '_' :: collapseGo true rest
    else c :: collapseGo false rest

/-- `strings.Trim(safe, "_")` (`main.go:131`). -/
def trimUnderscores (l : List Char) : List Char :=
  ((l.dropWhile (fun c => c = '_')).reverse.dropWhile (fun c => c = '_')).reverse

/-- The token `"_pdf"` of `invalidSubstrings` (`main.go:133-135`). -/
def pdfTok : List Char := ['_', 'p', 'd', 'f']

/-- `removeSubstring(safe, "_pdf")` (`main.go:112-115`, i.e.
`strings.ReplaceAll(input, "_pdf", "")`) specialized to the only token
the program ever removes.  `ReplaceAll` scans left to right and replaces
each non-overlapping occurrence, continuing after the removed text; the
output is not rescanned. -/
def removePdf : List Char → List Char
  | [] => []
  | '_' :: 'p' :: 'd' :: 'f' :: rest => removePdf rest
  | c :: rest => c :: removePdf rest

/-- `getFileExtension` = `filepath.Ext` (`main.go:118-120`): the suffix
of the path starting at the final dot of the last path element, empty
when the last element has no dot.  Implemented by scanning the reversed
path up to the first `'.'`, aborting at a `'/'`. -/
def extRevGo (acc : List Char) : List Char → List Char
  | [] => []
  | c :: rest =>
    if c = '/' then []
    else if c = '.' then '.' :: acc
    else extRevGo (c :: acc) rest

/-- `filepath.Ext` (`main.go:118-120`). -/
def getFileExtension (l : List Char) : List Char := extRevGo [] l.reverse

/-- The sanitized stem of `urlToFilename` just before the final
extension check (`main.go:124-139`): lowercase, basename, non-alphanumerics
to underscores, underscore runs collapsed, underscores trimmed, `"_pdf"`
occurrences removed. -/
def sanStem (rawURL : List Char) : List Char :=
  removePdf (trimUnderscores (collapseGo false (mapNonAlnum (getFilename (toLowerGo rawURL)))))

/-- `urlToFilename` (`main.go:123-146`). -/
def urlToFilename (rawURL : List Char) : List Char :=
  let safe := sanStem rawURL
  if getFileExtension safe = str ".pdf" then safe else safe ++ str ".pdf"

example : str "ab" = ['a', 'b'] := rfl
example : urlToFilename (str "/products/view/SOME_PDF_File.PDF") = str "some_file.pdf" := by decide
example : urlToFilename (str "") = str ".pdf" := by decide
example : urlToFilename (str ".pdf") = str "pdf.pdf" := by decide
example : urlToFilename (str "x_pd_pdff") = str "x_pdf.pdf" := by decide
example : urlToFilename (str "x_pdf.pdf") = str "x.pdf" := by decide
example : urlToFilename (str "https://a.b/c/Doc One.pdf") = str "doc_one.pdf" := by decide

/-! ## `extractPDFUrls` (`main.go:36-57`)

The Go code runs `regexp.MustCompile("href=\x22([^\x22]+\.pdf)\x22")
.FindAllStringSubmatch(htmlContent, -1)` and collects the first capture
group of every match.  The model scans every position of the input; at a
position the pattern matches when the text starts with the literal
`href="`, the following quote-delimited value contains at least one
character before a final `".pdf"`, and a closing quote exists.  The Go
engine finds successive leftmost matches and resumes *after* each match,
but for this particular pattern no two matches can overlap (a later
match needs a `"` for its opening delimiter and the matched region's
only quotes are its own delimiters; a match ending at the closing quote
would force the value to end in `"href="` instead of `".pdf"`), so
scanning every position and emitting every per-position match is
equivalent. -/

/-- The per-position match of the pattern
`href="([^"]+\.pdf)"`: returns the capture group when the given suffix
of the input starts with a full match. -/
def tryMatchAt (s : List Char) : Option (List Char) :=
  if (str "href=\"").isPrefixOf s then
    let after := s.drop 6
    let v := after.takeWhile (fun c => c ≠ '"')
    let rest := after.dropWhile (fun c => c ≠ '"')
    if rest ≠ [] ∧ (str ".pdf").isSuffixOf v ∧ 5 ≤ v.length then some v else none
  else none

/-- `extractPDFUrls` (`main.go:36-57`). -/
def extractPDFUrls : List Char → List (List Char)
  | [] => []
  | c :: rest =>
    match tryMatchAt (c :: rest) with
    | some v => v :: extractPDFUrls rest
    | none => extractPDFUrls rest

/-- Declarative rendering of the extractor contract: the ordered
sequence, over all positions of the input, of the capture groups of the
pattern occurrences starting there. -/
def specPDFCaptures (s : List Char) : List (List Char) :=
  (List.range s.length).filterMap (fun i => tryMatchAt (s.drop i))

/-- The per-position match as described by the words of claim C3: a
`href="..."` attribute whose value contains no double-quote and ends in
`.pdf` (with no requirement of a character before the suffix). -/
def claimMatchAt (s : List Char) : Option (List Char) :=
  if (str "href=\"").isPrefixOf s then
    let after := s.drop 6
    let v := after.takeWhile (fun c => c ≠ '"')
    let rest := after.dropWhile (fun c => c ≠ '"')
    if rest ≠ [] ∧ (str ".pdf").isSuffixOf v then some v else none
  else none

/-- The extractor output as described by the words of claim C3. -/
def claimPDFCaptures (s : List Char) : List (List Char) :=
  (List.range s.length).filterMap (fun i => claimMatchAt (s.drop i))

example : extractPDFUrls (str "<a href=\"/docs/a.pdf\">") = [str "/docs/a.pdf"] := by decide
example : extractPDFUrls (str "<a href=\"/docs/a.txt\">") = [] := by decide
example : extractPDFUrls (str "href=\".pdf\"") = [] := by decide
example : claimPDFCaptures (str "href=\".pdf\"") = [str ".pdf"] := by decide
example : extractPDFUrls (str "href=\"a.pdf\" href=\"b.pdf\"") = [str "a.pdf", str "b.pdf"] := by decide

/-! ## `removeDuplicatesFromSlice` (`main.go:83-93`) -/

/-- The loop of `removeDuplicatesFromSlice`: `check` models the key set
of the Go map `check`, `content` is appended to the result exactly when
it has not been seen. -/
def removeDupGo (check : List String) : List String → List String
  | [] => []
  | x :: xs =>
    if x ∈ check then removeDupGo check xs else x :: removeDupGo (x :: check) xs

/-- `removeDuplicatesFromSlice` (`main.go:83-93`). -/
def removeDuplicatesFromSlice (l : List String) : List String := removeDupGo [] l

/-- The dedup contract as a declarative recursion: an element is kept
exactly when it does not occur among the elements preceding it
(`pre` accumulates the already-traversed prefix of the original list). -/
def firstOccGo (pre : List String) : List String → List String
  | [] => []
  | x :: xs =>
    if x ∈ pre then firstOccGo (pre ++ [x]) xs else x :: firstOccGo (pre ++ [x]) xs

/-- The subsequence of first occurrences of a list, in order. -/
def firstOccurrencesSpec (l : List String) : List String := firstOccGo [] l

example : removeDuplicatesFromSlice ["a", "b", "a", "c", "b"] = ["a", "b", "c"] := by decide

/-! ## `hasDomain` (`main.go:96-104`) and URL normalization in `main`

`hasDomain` calls `net/url.Parse` and reports whether the parsed URL has
a non-empty `Host`.  The model embeds the host-determining behaviour of
`url.Parse`: cut the fragment at the first `#`, reject control
characters in the pre-fragment part, split a leading `scheme:`, strip
the query at the first `?`, and read an authority only when the
remainder begins with `//` (for a scheme-less URL, not with `///`).
The userinfo before the last `@` must pass `validUserinfo` and carry
well-formed percent escapes; the host — which in Go *includes* the
`:port` suffix — is validated like `parseHost`/`unescape(·, encodeHost)`:
a digits-only optional port after the last colon (after the bracket for
`[...]` hosts, which need a `]` and support an RFC 6874 `%25` zone), raw
ASCII characters restricted to the set `shouldEscape(·, encodeHost)`
admits, and percent escapes of two hex digits that encode a non-ASCII
byte (`%8x`–`%Fx`) or are exactly `%25` (zone escapes are exempt from
the non-ASCII restriction).  After the authority, the path's percent
escapes are validated (`setPath`), and a non-empty fragment's as well
(`setFragment`).  Any of these failing is a `url.Parse` error and makes
`hasDomain` return `false`, exactly as in the Go code.  Where Go
returns the *unescaped* host, the model keeps the raw text: `hasDomain`
only tests emptiness, and unescaping preserves (non-)emptiness. -/

/-- ASCII control characters, rejected by `url.Parse`. -/
def isCtlChar (c : Char) : Bool := c.toNat < 32 || c.toNat == 127

/-- Result of Go's `getScheme`. -/
inductive SchemeRes where
  | err : SchemeRes
  | noScheme : SchemeRes
  | split (rest : List Char) : SchemeRes
deriving DecidableEq

/-- The scanning loop of `getScheme` after a valid first letter. -/
def schemeLoop : List Char → SchemeRes
  | [] => .noScheme
  | c :: cs =>
    if c = ':' then .split cs
    else if c.isAlpha || c.isDigit || c = '+' || c = '-' || c = '.' then schemeLoop cs
    else .noScheme

/-- Go's `getScheme`: a scheme is a leading letter followed by letters,
digits, `+`, `-` or `.`, terminated by `:`; a leading `:` is a parse
error; any other shape means "no scheme, keep the whole string". -/
def getSchemeGo (l : List Char) : SchemeRes :=
  match l with
  | [] => .noScheme
  | c :: _ =>
    if c = ':' then .err
    else if c.isAlpha then schemeLoop l.tail
    else .noScheme

/-- Characters Go's `validUserinfo` accepts (ASCII alphanumerics and the
listed punctuation). -/
def isUserinfoChar (c : Char) : Bool :=
  c.isAlpha || c.isDigit ||
  c = '-' || c = '.' || c = '_' || c = ':' || c = '~' || c = '!' || c = '$' ||
  c = '&' || c = '\'' || c = '(' || c = ')' || c = '*' || c = '+' || c = ',' ||
  c = ';' || c = '=' || c = '%' || c = '@'

/-- Everything after the last occurrence of `ch` (the whole list when
`ch` does not occur). -/
def afterLastChar (ch : Char) (l : List Char) : List Char :=
  (l.reverse.takeWhile (fun c => c ≠ ch)).reverse

/-- Everything before the last occurrence of `ch` (empty when `ch` does
not occur). -/
def beforeLastChar (ch : Char) (l : List Char) : List Char :=
  ((l.reverse.dropWhile (fun c => c ≠ ch)).drop 1).reverse

/-- Go's `validOptionalPort`: empty, or a `:` followed by digits only
(possibly none). -/
def validOptionalPortGo : List Char → Bool
  | [] => true
  | ':' :: rest => rest.all Char.isDigit
  | _ => false

/-- A hexadecimal digit (Go's `ishex`). -/
def isHexChar (c : Char) : Bool :=
  c.isDigit || (97 ≤ c.toNat && c.toNat ≤ 102) || (65 ≤ c.toNat && c.toNat ≤ 70)

/-- The value of a hexadecimal digit (Go's `unhex`, defined on
characters `ishex` accepts). -/
def unhexVal (c : Char) : Nat :=
  if c.isDigit then c.toNat - 48
  else if 97 ≤ c.toNat && c.toNat ≤ 102 then c.toNat - 87
  else if 65 ≤ c.toNat && c.toNat ≤ 70 then c.toNat - 55
  else 0

/-- Percent escapes must be followed by two hexadecimal digits: the
validation `unescape` performs in the path, fragment and userinfo
encodings, where raw characters are not restricted. -/
def validPctEscapes : List Char → Bool
  | [] => true
  | '%' :: a :: b :: rest => isHexChar a && isHexChar b && validPctEscapes rest
  | '%' :: _ => false
  | _ :: rest => validPctEscapes rest

/-- The raw ASCII characters `shouldEscape(·, encodeHost)` leaves
unescaped: alphanumerics, the sub-delims with `:`, `[`, `]`, `<`, `>`,
`"`, the unreserved marks `-._~`, and the reserved `$&+,/:;=?@`. -/
def isHostChar (c : Char) : Bool :=
  c.isAlpha || c.isDigit ||
  c = '!' || c = '$' || c = '&' || c = '\'' || c = '(' || c = ')' || c = '*' ||
  c = '+' || c = ',' || c = ';' || c = '=' || c = ':' || c = '[' || c = ']' ||
  c = '<' || c = '>' || c = '"' || c = '-' || c = '_' || c = '.' || c = '~' ||
  c = '/' || c = '?' || c = '@'

/-- `unescape(·, encodeHost)` as a validity check: raw ASCII characters
must be in `isHostChar` (bytes ≥ 0x80 pass), and a percent escape needs
two hex digits whose value encodes a non-ASCII byte (first digit ≥ 8)
unless it is exactly `%25`. -/
def validHostEscapes : List Char → Bool
  | [] => true
  | '%' :: a :: b :: rest =>
    isHexChar a && isHexChar b && (decide (8 ≤ unhexVal a) || (a = '2' && b = '5')) &&
    validHostEscapes rest
  | '%' :: _ => false
  | c :: rest => (decide (128 ≤ c.toNat) || isHostChar c) && validHostEscapes rest

/-- `unescape(·, encodeZone)` as a validity check: like the host
encoding but without the non-ASCII restriction on escapes. -/
def validZoneEscapes : List Char → Bool
  | [] => true
  | '%' :: a :: b :: rest => isHexChar a && isHexChar b && validZoneEscapes rest
  | '%' :: _ => false
  | c :: rest => (decide (128 ≤ c.toNat) || isHostChar c) && validZoneEscapes rest

/-- Split a list at the first occurrence of the literal `"%25"`
(`strings.Index(·, "%25")`): `none` when absent, otherwise the part
before it and the part starting with it. -/
def splitAtPct25 : List Char → Option (List Char × List Char)
  | [] => none
  | c :: rest =>
    if ['%', '2', '5'].isPrefixOf (c :: rest) then some ([], c :: rest)
    else
      match splitAtPct25 rest with
      | none => none
      | some (pre, suf) => some (c :: pre, suf)

/-- Go's `parseHost` on the host part of an authority (the part that
*keeps* any `:port` suffix): a bracketed host needs a `]` with at most a
digits-only `:port` after it, and an RFC 6874 `%25` zone inside the
brackets is validated with the zone encoding; otherwise the part after
the last colon must be a digits-only port; the whole host must pass the
host-encoding validation.  Returns `none` on a parse error, otherwise
the (still escaped) host text. -/
def parseHostGo (host : List Char) : Option (List Char) :=
  match host with
  | '[' :: _ =>
    if host.contains ']' then
      let colonPort := afterLastChar ']' host
      if validOptionalPortGo colonPort then
        match splitAtPct25 (beforeLastChar ']' host) with
        | some (pre, zone) =>
          if validHostEscapes pre && validZoneEscapes zone &&
              validHostEscapes (']' :: colonPort) then some host else none
        | none => if validHostEscapes host then some host else none
      else none
    else none
  | _ =>
    if host.contains ':' then
      if (afterLastChar ':' host).all Char.isDigit then
        if validHostEscapes host then some host else none
      else none
    else if validHostEscapes host then some host else none

/-- Go's `parseAuthority`: the userinfo before the last `@` must pass
`validUserinfo` and have well-formed percent escapes
(`unescape(·, encodeUserPassword)`); the rest is the host.  Returns
`none` on error. -/
def parseAuthorityGo (auth : List Char) : Option (List Char) :=
  if auth.contains '@' then
    let user := beforeLastChar '@' auth
    let host := afterLastChar '@' auth
    if user.all isUserinfoChar && validPctEscapes user then parseHostGo host else none
  else parseHostGo auth

/-- `hasDomain` (`main.go:96-104`): `url.Parse` succeeds and the parsed
URL carries a non-empty `Host` (which includes any `:port`).  When no
authority is read, `Host` is empty and the path-validation outcome
cannot change the `false` result, so it is elided in that branch. -/
def hasDomain (rawURL : List Char) : Bool :=
  let noFrag := rawURL.takeWhile (fun c => c ≠ '#')
  let frag := (rawURL.dropWhile (fun c => c ≠ '#')).drop 1
  if noFrag.any isCtlChar then false
  else if !frag.isEmpty && !validPctEscapes frag then false
  else
    match getSchemeGo noFrag with
    | .err => false
    | sr =>
      let hasScheme := sr ≠ .noScheme
      let rest0 := match sr with | .split r => r | _ => noFrag
      let rest := rest0.takeWhile (fun c => c ≠ '?')
      if (hasScheme || ¬ (str "///").isPrefixOf rest) ∧ (str "//").isPrefixOf rest then
        let auth := (rest.drop 2).takeWhile (fun c => c ≠ '/')
        let path := (rest.drop 2).dropWhile (fun c => c ≠ '/')
        match parseAuthorityGo auth with
        | some h => !h.isEmpty && validPctEscapes path
        | none => false
      else false

/-- The base origin prepended by `main` (`main.go:516`). -/
def baseOrigin : List Char := str "https://www.nclonline.com"

/-- The URL normalization step of the download loop in `main`
(`main.go:514-518`): a candidate without a host gets the fixed base
origin prepended by string concatenation; otherwise it is unchanged. -/
def normalizeStep (u : List Char) : List Char :=
  if hasDomain u then u else baseOrigin ++ u

example : hasDomain (str "/products/view/X") = false := by decide
example : hasDomain (str "https://www.nclonline.com/products/view/X") = true := by decide
example : hasDomain (str "//host/x") = true := by decide
example : hasDomain (str "https:///x") = false := by decide
example : hasDomain (str "http://a b/x.pdf") = false := by decide
example : hasDomain (str "http://%41/x.pdf") = false := by decide
example : hasDomain (str "http://%C3%A9.example/x.pdf") = true := by decide
example : hasDomain (str "http://:80/x.pdf") = true := by decide
example : hasDomain (str "https://h/a%zz.pdf") = false := by decide
example : hasDomain (str "https://h/x.pdf#%zz") = false := by decide
example : hasDomain (str "http://user:pw@h:80/x.pdf") = true := by decide
example : hasDomain (str "http://h:8x/") = false := by decide
example : hasDomain (str "http://[::1]:80/x.pdf") = true := by decide
example : hasDomain (str "http://[fe80::1%25en0]/x.pdf") = true := by decide
example : hasDomain (str "http://[::1/x.pdf") = false := by decide
example : normalizeStep (str "/products/view/X") = str "https://www.nclonline.com/products/view/X" := by decide

/-! ## `filepath.Join` (`main.go:151`) -/

/-- Split a path at every `'/'`. -/
def splitOnSlash : List Char → List (List Char)
  | [] => [[]]
  | c :: rest =>
    let r := splitOnSlash rest
    if c = '/' then [] :: r
    else
      match r with
      | [] => [[c]]
      | h :: t => (c :: h) :: t

/-- The element loop of `filepath.Clean`: empty and `"."` elements are
dropped; `".."` pops the previous element when one is available, is
dropped at the root of a rooted path, and is kept otherwise.  `acc`
holds the output elements in reverse. -/
def cleanSegs (rooted : Bool) (acc : List (List Char)) : List (List Char) → List (List Char)
  | [] => acc.reverse
  | p :: ps =>
    if p = [] ∨ p = ['.'] then cleanSegs rooted acc ps
    else if p = ['.', '.'] then
      match acc with
      | [] => if rooted then cleanSegs rooted [] ps else cleanSegs rooted [['.', '.']] ps
      | q :: qs =>
        if q = ['.', '.'] then cleanSegs rooted (p :: acc) ps else cleanSegs rooted qs ps
    else cleanSegs rooted (p :: acc) ps

/-- Rejoin path elements with `'/'`. -/
def joinSegs : List (List Char) → List Char
  | [] => []
  | [s] => s
  | s :: rest => s ++ '/' :: joinSegs rest

/-- `filepath.Clean` on Unix. -/
def goClean (p : List Char) : List Char :=
  if p = [] then ['.']
  else
    let rooted := p.head? = some '/'
    let out := joinSegs (cleanSegs rooted [] (splitOnSlash p))
    if rooted then (if out = [] then ['/'] else '/' :: out)
    else (if out = [] then ['.'] else out)

/-- `filepath.Join(a, b)` on Unix: `Clean` of the `"/"`-joined non-empty
elements, `""` when both are empty. -/
def goJoin (a b : List Char) : List Char :=
  if a = [] then (if b = [] then [] else goClean b)
  else goClean (a ++ '/' :: b)

example : goJoin (str "PDFs/") (str "a_b.pdf") = str "PDFs/a_b.pdf" := by decide
example : goJoin (str "") (str "x.pdf") = str "x.pdf" := by decide
example : goClean (str "a/../../b") = str "../b" := by decide
example : goClean (str "/..//c/./d") = str "/c/d" := by decide

/-! ## Filesystem and `downloadPDF` (`main.go:149-203`)

The filesystem is an association list from paths to file contents (the
program only ever creates regular files, so `fileExists`, which in Go is
`os.Stat` plus `!IsDir` (`main.go:19-25`), is presence in the list).
The HTTP side of `downloadPDF` is an oracle
`fetch : path → Option HTTPResponse`; `none` models a transport error
of `client.Get` (`main.go:160-164`), and a returned response carries the
status code, `Content-Type` header and the fully-read body
(`io.Copy` into the in-memory buffer, `main.go:178-183`).  The failure
paths of `io.Copy`, `os.Create` and the final write (`main.go:180-199`)
are not modelled separately: in the model a write always succeeds.  No
claim depends on those paths — every property proved below concerns
either a branch taken before `os.Create` is reached or a successful
call. -/

/-- An HTTP response as observed by `downloadPDF`. -/
structure HTTPResponse where
  status : Nat
  contentType : List Char
  body : List Char
deriving DecidableEq

/-- The filesystem model: an association list path ↦ contents. -/
abbrev FS := List (List Char × List Char)

/-- Look up a path. -/
def fsLookup (fs : FS) (p : List Char) : Option (List Char) :=
  match fs with
  | [] => none
  | (q, v) :: rest => if q = p then some v else fsLookup rest p

/-- `fileExists` (`main.go:19-25`). -/
def fileExists (fs : FS) (p : List Char) : Bool := (fsLookup fs p).isSome

/-- `os.Create` followed by writing the buffered body
(`main.go:189-199`). -/
def fsPut (fs : FS) (p v : List Char) : FS := (p, v) :: fs

/-- `strings.Contains` (`main.go:173`). -/
def goContains (sub : List Char) : List Char → Bool
  | [] => sub.isEmpty
  | c :: rest => sub.isPrefixOf (c :: rest) || goContains sub rest

/-- The accepted content types of `downloadPDF` (`main.go:172-176`). -/
def ctOK (ct : List Char) : Bool :=
  goContains (str "binary/octet-stream") ct || goContains (str "application/pdf") ct

/-- `downloadPDF` (`main.go:149-203`): returns the Go function's boolean
result together with the filesystem after the call. -/
def downloadPDF (fetch : List Char → Option HTTPResponse) (fs : FS)
    (finalURL outputDir : List Char) : Bool × FS :=
  let filename := toLowerGo (urlToFilename finalURL)
  let filePath := goJoin outputDir filename
  if fileExists fs filePath then (false, fs)
  else
    match fetch finalURL with
    | none => (false, fs)
    | some resp =>
      if resp.status ≠ 200 then (false, fs)
      else if ¬ ctOK resp.contentType then (false, fs)
      else if resp.body.length = 0 then (false, fs)
      else (true, fsPut fs filePath resp.body)

/-! ## `getDataFromURL` (`main.go:206-223`) and the fetch loop of `main`

`http.Get` returns a nil `*http.Response` together with a non-nil error
on a transport failure.  `getDataFromURL` logs such an error and then
unconditionally evaluates `response.Body`, which on a nil response is a
nil-pointer dereference: a runtime panic that terminates the program.
The model surfaces that panic as `Except.error`. -/

/-- The observable behaviour of `http.Get` for one URL: a transport
error (nil response), or a response whose body reads as the given
text. -/
inductive HttpGetResult where
  | failure : HttpGetResult
  | success (body : List Char) : HttpGetResult
deriving DecidableEq

/-- The runtime panic raised by `getDataFromURL` on a failed fetch. -/
inductive GoPanic where
  | nilPointerDereference : GoPanic
deriving DecidableEq

/-- `getDataFromURL` (`main.go:206-223`): on `http.Get` error the error
is logged and then `response.Body` is dereferenced on the nil response,
a panic; otherwise the body text is returned. -/
def getDataFromURL (fetch : List Char → HttpGetResult) (uri : List Char) :
    Except GoPanic (List Char) :=
  match fetch uri with
  | .failure => Except.error GoPanic.nilPointerDereference
  | .success body => Except.ok body

/-- The seed fetch loop of `main` (`main.go:500-506`): pages are fetched
sequentially and their bodies accumulated; a panic aborts the whole
loop (and the program). -/
def fetchSeedPages (fetch : List Char → HttpGetResult) :
    List (List Char) → Except GoPanic (List (List Char))
  | [] => Except.ok []
  | u :: us =>
    match getDataFromURL fetch u with
    | Except.error p => Except.error p
    | Except.ok b =>
      match fetchSeedPages fetch us with
      | Except.error p => Except.error p
      | Except.ok bs => Except.ok (b :: bs)

/-- A fetch oracle under which the first seed URL suffers a transport
error and the second would succeed. -/
def failingFirstFetch : List Char → HttpGetResult := fun u =>
  if u = str "https://www.nclonline.com/products/sds_alpha" then HttpGetResult.failure
  else HttpGetResult.success (str "<html></html>")

/-! ## Helper lemmas about the sanitizer pipeline -/

/-- Underscore-freedom of adjacent pairs: no two consecutive underscores. -/
def NoDU (l : List Char) : Prop :=
  l.Chain' (fun a b => ¬(a = '_' ∧ b = '_'))

theorem takeWhile_all {α : Type} {p : α → Bool} :
    ∀ {l : List α}, (∀ c ∈ l, p c = true) → l.takeWhile p = l := by
  intro l
  induction l with
  | nil => intro _; rfl
  | cons a as ih =>
    intro h
    rw [List.takeWhile_cons, h a (by simp)]
    simp [ih fun c hc => h c (by simp [hc])]

theorem dropWhile_head_false {α : Type} {p : α → Bool} {l : List α}
    (h : ∀ a, l.head? = some a → p a = false) : l.dropWhile p = l := by
  cases l with
  | nil => rfl
  | cons a as => rw [List.dropWhile_cons, h a rfl]; simp

theorem head_dropWhile_ne {α : Type} {p : α → Bool} {a : α} :
    ∀ {l : List α}, (l.dropWhile p).head? = some a → p a = false := by
  intro l
  induction l with
  | nil => intro h; simp at h
  | cons b bs ih =>
    intro h
    rw [List.dropWhile_cons] at h
    by_cases hb : p b = true
    · exact ih (by simpa [hb] using h)
    · rw [if_neg hb] at h
      simp only [List.head?_cons, Option.some.injEq] at h
      subst h
      exact Bool.eq_false_iff.mpr hb

theorem az09u_toNat {c : Char} (h : az09u c = true) :
    (97 ≤ c.toNat ∧ c.toNat ≤ 122) ∨ (48 ≤ c.toNat ∧ c.toNat ≤ 57) ∨ c.toNat = 95 := by
  unfold az09u isAz09 at h
  simp only [Bool.or_eq_true, Bool.and_eq_true, decide_eq_true_eq, beq_iff_eq] at h
  rcases h with (h | h) | h
  · exact Or.inl h
  · exact Or.inr (Or.inl h)
  · subst h; exact Or.inr (Or.inr rfl)

theorem az09u_ne_dot {c : Char} (h : az09u c = true) : c ≠ '.' := by
  intro he; subst he; simp [az09u, isAz09] at h

theorem az09u_ne_slash {c : Char} (h : az09u c = true) : c ≠ '/' := by
  intro he; subst he; simp [az09u, isAz09] at h

theorem lowerChar_az09u {c : Char} (h : az09u c = true) : lowerChar c = c := by
  unfold lowerChar
  rw [if_neg]
  rcases az09u_toNat h with h' | h' | h' <;> omega

theorem mem_mapNonAlnum {c : Char} {l : List Char} (h : c ∈ mapNonAlnum l) :
    az09u c = true := by
  rcases List.mem_map.1 h with ⟨a, _, rfl⟩
  unfold nonAlnumChar
  split
  · simp [az09u, *]
  · decide

theorem nonAlnumChar_az09u {c : Char} (h : az09u c = true) : nonAlnumChar c = c := by
  unfold nonAlnumChar
  split
  · rfl
  · unfold az09u at h
    simp only [Bool.or_eq_true, beq_iff_eq] at h
    rcases h with h | h
    · simp_all
    · simp [h]

theorem collapseTrue_head : ∀ l : List Char, (collapseGo true l).head? ≠ some '_' := by
  intro l
  induction l with
  | nil => simp [collapseGo]
  | cons c rest ih =>
    by_cases hc : c = '_'
    · simpa [collapseGo, hc] using ih
    · simp [collapseGo, hc]

theorem noDU_collapseGo : ∀ (l : List Char) (b : Bool), NoDU (collapseGo b l) := by
  intro l
  induction l with
  | nil => intro b; simp [collapseGo, NoDU]
  | cons c rest ih =>
    intro b
    by_cases hc : c = '_'
    · subst hc
      cases b with
      | true => simpa [collapseGo] using ih true
      | false =>
        simp only [collapseGo, if_pos rfl]
        refine List.chain'_cons'.2 ⟨?_, ih true⟩
        intro y hy hcon
        exact collapseTrue_head rest (by rw [hy, hcon.2])
    · simp only [collapseGo, if_neg hc]
      refine List.chain'_cons'.2 ⟨?_, ih false⟩
      intro y _ hcon
      exact hc hcon.1

theorem mem_collapseGo {c : Char} :
    ∀ (l : List Char) (b : Bool), c ∈ collapseGo b l → c ∈ l ∨ c = '_' := by
  intro l
  induction l with
  | nil => intro b h; simp [collapseGo] at h
  | cons a rest ih =>
    intro b h
    by_cases ha : a = '_'
    · subst ha
      cases b with
      | true =>
        simp only [collapseGo, if_pos rfl, if_pos rfl] at h
        rcases ih true h with h' | h'
        · exact Or.inl (List.mem_cons_of_mem _ h')
        · exact Or.inr h'
      | false =>
        simp only [collapseGo, if_pos rfl] at h
        rcases List.mem_cons.1 h with h' | h'
        · exact Or.inr h'
        · rcases ih true h' with h'' | h''
          · exact Or.inl (List.mem_cons_of_mem _ h'')
          · exact Or.inr h''
    · simp only [collapseGo, if_neg ha] at h
      rcases List.mem_cons.1 h with h' | h'
      · exact Or.inl (h' ▸ List.mem_cons_self _ _)
      · rcases ih false h' with h'' | h''
        · exact Or.inl (List.mem_cons_of_mem _ h'')
        · exact Or.inr h''

theorem collapse_id_pair :
    ∀ l : List Char, NoDU l →
      collapseGo false l = l ∧ (l.head? ≠ some '_' → collapseGo true l = l) := by
  intro l
  induction l with
  | nil => intro _; exact ⟨rfl, fun _ => rfl⟩
  | cons c rest ih =>
    intro h
    have hrest : NoDU rest := (List.chain'_cons'.1 h).2
    have hrel : ∀ y ∈ rest.head?, ¬(c = '_' ∧ y = '_') := (List.chain'_cons'.1 h).1
    by_cases hc : c = '_'
    · subst hc
      have hh : rest.head? ≠ some '_' := by
        intro he
        exact hrel '_' (Option.mem_def.2 he) ⟨rfl, rfl⟩
      constructor
      · simp only [collapseGo, if_pos rfl]
        rw [(ih hrest).2 hh]
        simp
      · intro hcon
        simp at hcon
    · constructor
      · simp only [collapseGo, if_neg hc]
        rw [(ih hrest).1]
      · intro _
        simp only [collapseGo, if_neg hc]
        rw [(ih hrest).1]

theorem trim_head {l : List Char} : (trimUnderscores l).head? ≠ some '_' := by
  unfold trimUnderscores
  intro h
  rw [List.head?_reverse] at h
  rcases hm : (l.dropWhile (fun c => c = '_')).reverse.dropWhile (fun c => c = '_') with _ | ⟨a, m⟩
  · rw [hm] at h; simp at h
  · rw [hm] at h
    have hlast : (a :: m).getLast? = some '_' := h
    have hsuf : (a :: m) <:+ (l.dropWhile (fun c => c = '_')).reverse := by
      rw [← hm]; exact List.dropWhile_suffix _
    rcases hsuf with ⟨t, ht⟩
    have : ((l.dropWhile (fun c => c = '_')).reverse).getLast? = some '_' := by
      rw [← ht, List.getLast?_append_of_ne_nil _ (by simp)]
      exact hlast
    rw [List.getLast?_reverse] at this
    have := head_dropWhile_ne this
    simp at this

theorem trim_last {l : List Char} : (trimUnderscores l).getLast? ≠ some '_' := by
  unfold trimUnderscores
  intro h
  rw [List.getLast?_reverse] at h
  have := head_dropWhile_ne h
  simp at this

theorem mem_trim {c : Char} {l : List Char} (h : c ∈ trimUnderscores l) : c ∈ l := by
  unfold trimUnderscores at h
  rw [List.mem_reverse] at h
  have h1 := (List.dropWhile_suffix (l := (l.dropWhile (fun c => c = '_')).reverse)
    (fun c => c = '_')).subset h
  rw [List.mem_reverse] at h1
  exact (List.dropWhile_suffix (l := l) (fun c => c = '_')).subset h1

theorem noDU_suffix : ∀ {l m : List Char}, NoDU l → m <:+ l → NoDU m := by
  intro l m hl hs
  rcases hs with ⟨t, ht⟩
  rw [← ht] at hl
  exact hl.right_of_append

theorem noDU_reverse {l : List Char} (h : NoDU l) : NoDU l.reverse := by
  unfold NoDU at h ⊢
  rw [List.chain'_reverse]
  exact h.imp fun {a b} hab => fun hcon => hab ⟨hcon.2, hcon.1⟩

theorem trim_noDU {l : List Char} (h : NoDU l) : NoDU (trimUnderscores l) := by
  unfold trimUnderscores
  apply noDU_reverse
  apply noDU_suffix _ (List.dropWhile_suffix _)
  apply noDU_reverse
  exact noDU_suffix h (List.dropWhile_suffix _)

theorem trim_id {l : List Char} (h1 : l.head? ≠ some '_') (h2 : l.getLast? ≠ some '_') :
    trimUnderscores l = l := by
  unfold trimUnderscores
  have e1 : l.dropWhile (fun c => c = '_') = l := by
    apply dropWhile_head_false
    intro a ha
    simp only [decide_eq_false_iff_not]
    intro he
    exact h1 (he ▸ ha)
  rw [e1]
  have e2 : l.reverse.dropWhile (fun c => c = '_') = l.reverse := by
    apply dropWhile_head_false
    intro a ha
    rw [List.head?_reverse] at ha
    simp only [decide_eq_false_iff_not]
    intro he
    exact h2 (he ▸ ha)
  rw [e2, List.reverse_reverse]

theorem pdfTok_not_isPrefixOf {c : Char} {cs : List Char}
    (h : pdfTok.isPrefixOf (c :: cs) = false) : ¬ pdfTok <+: (c :: cs) := by
  intro hp
  rw [List.isPrefixOf_iff_prefix.2 hp] at h
  simp at h

theorem rp_cons {c : Char} {cs : List Char} (h : pdfTok.isPrefixOf (c :: cs) = false) :
    removePdf (c :: cs) = c :: removePdf cs := by
  have h' := pdfTok_not_isPrefixOf h
  rw [removePdf.eq_def]
  split
  · simp_all
  · rename_i rest heq
    exact absurd ⟨rest, heq.symm⟩ h'
  · rename_i heq
    rw [List.cons.injEq] at heq
    rw [heq.1, heq.2]

theorem pdfTok_isPrefixOf_shape {l : List Char} (h : pdfTok.isPrefixOf l = true) :
    ∃ r, l = '_' :: 'p' :: 'd' :: 'f' :: r := by
  rcases List.isPrefixOf_iff_prefix.1 h with ⟨t, ht⟩
  exact ⟨t, ht.symm⟩

theorem mem_removePdf {c : Char} :
    ∀ {l : List Char}, c ∈ removePdf l → c ∈ l := by
  intro l
  induction l using removePdf.induct with
  | case1 => intro h; simp [removePdf] at h
  | case2 rest ih =>
    intro h
    rw [show removePdf ('_' :: 'p' :: 'd' :: 'f' :: rest) = removePdf rest from rfl] at h
    simp [ih h]
  | case3 a rest hne ih =>
    intro h
    have hp : pdfTok.isPrefixOf (a :: rest) = false := by
      by_cases hp' : pdfTok.isPrefixOf (a :: rest) = true
      · rcases pdfTok_isPrefixOf_shape hp' with ⟨r, hr⟩
        rw [List.cons.injEq] at hr
        exact absurd hr (by intro hc; exact hne r hc.1 hc.2)
      · exact Bool.eq_false_iff.mpr hp'
    rw [rp_cons hp] at h
    rcases List.mem_cons.1 h with h' | h'
    · exact h' ▸ List.mem_cons_self _ _
    · exact List.mem_cons_of_mem _ (ih h')

theorem pdfTok_isPrefixOf_false_of_shape {a : Char} {rest : List Char}
    (hne : ∀ r, a = '_' → rest = 'p' :: 'd' :: 'f' :: r → False) :
    pdfTok.isPrefixOf (a :: rest) = false := by
  by_cases hp' : pdfTok.isPrefixOf (a :: rest) = true
  · rcases pdfTok_isPrefixOf_shape hp' with ⟨r, hr⟩
    rw [List.cons.injEq] at hr
    exact absurd hr (by intro hc; exact hne r hc.1 hc.2)
  · exact Bool.eq_false_iff.mpr hp'

theorem pdfTok_isPrefixOf_false_of_head {a : Char} {rest : List Char} (ha : a ≠ '_') :
    pdfTok.isPrefixOf (a :: rest) = false :=
  pdfTok_isPrefixOf_false_of_shape (fun _ h1 _ => ha h1)

theorem rp_head {l : List Char} (h : l.head? ≠ some '_') :
    (removePdf l).head? = l.head? := by
  cases l with
  | nil => rfl
  | cons a rest =>
    have ha : a ≠ '_' := by
      intro he
      exact h (by rw [he, List.head?_cons])
    rw [rp_cons (pdfTok_isPrefixOf_false_of_head ha)]
    rfl

theorem rp_noDU : ∀ {l : List Char}, NoDU l → NoDU (removePdf l) := by
  intro l
  induction l using removePdf.induct with
  | case1 => intro h; exact h
  | case2 rest ih =>
    intro h
    have hrest : NoDU rest := h.tail.tail.tail.tail
    exact ih hrest
  | case3 a rest hne ih =>
    intro h
    rw [rp_cons (pdfTok_isPrefixOf_false_of_shape hne)]
    refine List.chain'_cons'.2 ⟨?_, ih (List.chain'_cons'.1 h).2⟩
    intro y hy hcon
    have ha : a = '_' := hcon.1
    have hresthead : rest.head? ≠ some '_' := by
      intro he
      exact (List.chain'_cons'.1 h).1 '_' (Option.mem_def.2 he) ⟨ha, rfl⟩
    rw [rp_head hresthead] at hy
    exact hresthead (by rw [Option.mem_def] at hy; rw [hy, hcon.2])

theorem rp_eq_nil_head {l : List Char} (hne : l ≠ []) (h : removePdf l = []) :
    l.head? = some '_' := by
  cases l with
  | nil => exact absurd rfl hne
  | cons a rest =>
    by_cases hp : pdfTok.isPrefixOf (a :: rest) = true
    · rcases pdfTok_isPrefixOf_shape hp with ⟨r, hr⟩
      rw [List.cons.injEq] at hr
      rw [hr.1, List.head?_cons]
    · rw [rp_cons (Bool.eq_false_iff.mpr hp)] at h
      exact absurd h (by simp)

theorem rp_last :
    ∀ {l : List Char}, NoDU l → l.getLast? ≠ some '_' →
      (removePdf l).getLast? ≠ some '_' := by
  intro l
  induction l using removePdf.induct with
  | case1 => intro _ _; simp [removePdf]
  | case2 rest ih =>
    intro h hlast
    show (removePdf rest).getLast? ≠ some '_'
    cases rest with
    | nil => simp [removePdf]
    | cons b bs =>
      have hrest : NoDU (b :: bs) := h.tail.tail.tail.tail
      have hlast' : (b :: bs).getLast? ≠ some '_' := by
        intro he
        apply hlast
        rw [List.getLast?_cons_cons, List.getLast?_cons_cons, List.getLast?_cons_cons]
        exact he
      exact ih hrest hlast'
  | case3 a rest hne ih =>
    intro h hlast
    rw [rp_cons (pdfTok_isPrefixOf_false_of_shape hne)]
    rcases hrp : removePdf rest with _ | ⟨b, bs⟩
    · simp only [List.getLast?_singleton]
      intro he
      rw [Option.some.injEq] at he
      subst he
      cases rest with
      | nil =>
        exact hlast rfl
      | cons c cs =>
        have hh := rp_eq_nil_head (by simp) hrp
        simp only [List.head?_cons, Option.some.injEq] at hh
        exact (List.chain'_cons'.1 h).1 c (by simp) ⟨rfl, hh⟩
    · rw [← hrp]
      have hstep : (a :: removePdf rest).getLast? = (removePdf rest).getLast? := by
        rw [hrp, List.getLast?_cons_cons]
      rw [hstep]
      apply ih (List.chain'_cons'.1 h).2
      intro he
      apply hlast
      cases rest with
      | nil => simp [removePdf] at hrp
      | cons c cs => rw [List.getLast?_cons_cons]; exact he

theorem rp_append_pdfTok :
    ∀ {s : List Char}, goContains pdfTok s = false → removePdf (s ++ pdfTok) = s := by
  intro s
  induction s with
  | nil => intro _; rfl
  | cons c cs ih =>
    intro h
    have h1 : pdfTok.isPrefixOf (c :: cs) = false ∧ goContains pdfTok cs = false := by
      have : goContains pdfTok (c :: cs) =
          (pdfTok.isPrefixOf (c :: cs) || goContains pdfTok cs) := rfl
      rw [this] at h
      exact Bool.or_eq_false_iff.1 h
    have hpre : pdfTok.isPrefixOf (c :: (cs ++ pdfTok)) = false := by
      rcases cs with _ | ⟨d, _ | ⟨e, _ | ⟨f, cs'⟩⟩⟩
      · simp [pdfTok, List.isPrefixOf_cons₂, List.isPrefixOf]
      · simp [pdfTok, List.isPrefixOf_cons₂, List.isPrefixOf]
      · simp [pdfTok, List.isPrefixOf_cons₂, List.isPrefixOf]
      · simpa [pdfTok, List.isPrefixOf_cons₂, List.isPrefixOf] using h1.1
    rw [List.cons_append, rp_cons hpre, ih h1.2]

theorem sanStem_chars {x : List Char} : ∀ c ∈ sanStem x, az09u c = true := by
  intro c hc
  unfold sanStem at hc
  have h1 := mem_removePdf hc
  have h2 := mem_trim h1
  rcases mem_collapseGo _ false h2 with h3 | h3
  · exact mem_mapNonAlnum h3
  · subst h3; decide

theorem sanStem_head {x : List Char} : (sanStem x).head? ≠ some '_' := by
  unfold sanStem
  rw [rp_head trim_head]
  exact trim_head

theorem sanStem_noDU {x : List Char} : NoDU (sanStem x) :=
  rp_noDU (trim_noDU (noDU_collapseGo _ false))

theorem sanStem_last {x : List Char} : (sanStem x).getLast? ≠ some '_' :=
  rp_last (trim_noDU (noDU_collapseGo _ false)) trim_last

theorem extRevGo_no_dot :
    ∀ (m acc : List Char), '.' ∉ m → extRevGo acc m = [] := by
  intro m
  induction m with
  | nil => intro _ _; rfl
  | cons c rest ih =>
    intro acc h
    have hc : c ≠ '.' := fun he => h (he ▸ List.mem_cons_self _ _)
    unfold extRevGo
    by_cases hs : c = '/'
    · rw [if_pos hs]
    · rw [if_neg hs, if_neg hc]
      exact ih _ fun hm => h (List.mem_cons_of_mem _ hm)

theorem getFileExtension_no_dot {l : List Char} (h : '.' ∉ l) :
    getFileExtension l = [] := by
  unfold getFileExtension
  exact extRevGo_no_dot _ _ (by rw [List.mem_reverse]; exact h)

theorem sanStem_no_dot {x : List Char} : '.' ∉ sanStem x := by
  intro h
  exact az09u_ne_dot (sanStem_chars '.' h) rfl

theorem urlToFilename_eq (x : List Char) :
    urlToFilename x = sanStem x ++ str ".pdf" := by
  unfold urlToFilename
  rw [if_neg]
  rw [getFileExtension_no_dot sanStem_no_dot]
  decide

theorem map_id_of_fix {f : Char → Char} :
    ∀ {l : List Char}, (∀ c ∈ l, f c = c) → l.map f = l := by
  intro l
  induction l with
  | nil => intro _; rfl
  | cons a as ih =>
    intro h
    rw [List.map_cons, h a (List.mem_cons_self _ _), ih fun c hc => h c (List.mem_cons_of_mem _ hc)]

theorem getFilename_id {l : List Char} (hne : l ≠ []) (hns : ∀ c ∈ l, c ≠ '/') :
    getFilename l = l := by
  unfold getFilename
  rw [if_neg hne]
  have e1 : stripTrailSlashes l = l := by
    unfold stripTrailSlashes
    rw [dropWhile_head_false, List.reverse_reverse]
    intro a ha
    rw [List.head?_reverse] at ha
    simp only [decide_eq_false_iff_not]
    exact hns a (List.mem_of_mem_getLast? ha)
  rw [e1, if_neg hne]
  unfold afterLastSlash
  rw [takeWhile_all, List.reverse_reverse]
  intro c hc
  rw [List.mem_reverse] at hc
  simp only [decide_eq_true_eq]
  exact hns c hc

theorem stem_append_pdf {s : List Char}
    (hchars : ∀ c ∈ s, az09u c = true)
    (hne : s ≠ [])
    (hhead : s.head? ≠ some '_')
    (hlast : s.getLast? ≠ some '_')
    (hnodu : NoDU s)
    (hcont : goContains pdfTok s = false) :
    sanStem (s ++ str ".pdf") = s := by
  have hlow : toLowerGo (s ++ str ".pdf") = s ++ str ".pdf" := by
    unfold toLowerGo
    rw [List.map_append, map_id_of_fix fun c hc => lowerChar_az09u (hchars c hc),
      show List.map lowerChar (str ".pdf") = str ".pdf" from by decide]
  have hbase : getFilename (s ++ str ".pdf") = s ++ str ".pdf" := by
    apply getFilename_id
    · intro habs
      rcases List.append_eq_nil.1 habs with ⟨_, h2⟩
      simp [str] at h2
    · intro c hc
      rcases List.mem_append.1 hc with h' | h'
      · exact az09u_ne_slash (hchars c h')
      · have h2 : c ∈ ['.', 'p', 'd', 'f'] := h'
        simp only [List.mem_cons, List.not_mem_nil, or_false] at h2
        rcases h2 with rfl | rfl | rfl | rfl <;> decide
  have hmap : mapNonAlnum (s ++ str ".pdf") = s ++ pdfTok := by
    unfold mapNonAlnum
    rw [List.map_append, map_id_of_fix fun c hc => nonAlnumChar_az09u (hchars c hc),
      show List.map nonAlnumChar (str ".pdf") = pdfTok from by decide]
  have hnoduTok : NoDU pdfTok := by
    unfold NoDU pdfTok
    refine List.chain'_cons.2 ⟨by decide, List.chain'_cons.2 ⟨by decide,
      List.chain'_cons.2 ⟨by decide, List.chain'_singleton _⟩⟩⟩
  have hnodu' : NoDU (s ++ pdfTok) := by
    refine List.chain'_append.2 ⟨hnodu, hnoduTok, ?_⟩
    intro x hx y hy hcon
    rw [Option.mem_def] at hx
    exact hlast (by rw [hx, hcon.1])
  have hcol : collapseGo false (s ++ pdfTok) = s ++ pdfTok := (collapse_id_pair _ hnodu').1
  have htrim : trimUnderscores (s ++ pdfTok) = s ++ pdfTok := by
    apply trim_id
    · rw [List.head?_append_of_ne_nil _ hne]
      exact hhead
    · rw [List.getLast?_append_of_ne_nil _ (by decide : pdfTok ≠ [])]
      decide
  unfold sanStem
  rw [hlow, hbase, hmap, hcol, htrim]
  exact rp_append_pdfTok hcont

theorem toLower_urlToFilename (x : List Char) :
    toLowerGo (urlToFilename x) = urlToFilename x := by
  rw [urlToFilename_eq x]
  unfold toLowerGo
  rw [List.map_append, map_id_of_fix fun c hc => lowerChar_az09u (sanStem_chars c hc),
    show List.map lowerChar (str ".pdf") = str ".pdf" from by decide]

/-- C9: for every input string the output of `urlToFilename` is the
sanitized stem followed by the literal suffix `".pdf"`, every stem
character lies in `[a-z0-9_]`, the output contains exactly one dot, and
the extension test on the stem yields `""` (never `".pdf"`), so the
append branch of `urlToFilename` is taken on every input. -/
theorem claim9_urlToFilename_shape (x : List Char) :
    urlToFilename x = sanStem x ++ str ".pdf" ∧
    (sanStem x).all az09u = true ∧
    (urlToFilename x).count '.' = 1 ∧
    getFileExtension (sanStem x) = [] := by
  refine ⟨urlToFilename_eq x, ?_, ?_, getFileExtension_no_dot sanStem_no_dot⟩
  · exact List.all_eq_true.2 fun c hc => sanStem_chars c hc
  · rw [urlToFilename_eq x, List.count_append]
    have h0 : (sanStem x).count '.' = 0 := List.count_eq_zero.2 sanStem_no_dot
    rw [h0]
    decide

/-- C1 counterexample: `urlToFilename` is not idempotent.  On the empty
string it yields `".pdf"`, whose image is `"pdf.pdf"`; on
`"x_pd_pdff"` it yields `"x_pdf.pdf"` (the `"_pdf"` removal glues a new
`"_pdf"` together), whose image is `"x.pdf"`. -/
theorem claim1_idempotence_counterexample :
    urlToFilename (urlToFilename (str "")) ≠ urlToFilename (str "") ∧
    urlToFilename (urlToFilename (str "x_pd_pdff")) ≠ urlToFilename (str "x_pd_pdff") := by
  decide

/-- C1 (amended): `urlToFilename` is deterministic (a pure function of
its argument), and it is idempotent on every input whose sanitized stem
is nonempty and contains no occurrence of `"_pdf"`; the counterexample
inputs violate exactly those two conditions. -/
theorem claim1_sanitizer_idempotent_amended (x : List Char)
    (hne : sanStem x ≠ []) (hfree : goContains pdfTok (sanStem x) = false) :
    urlToFilename (urlToFilename x) = urlToFilename x := by
  rw [urlToFilename_eq x, urlToFilename_eq (sanStem x ++ str ".pdf"),
    stem_append_pdf sanStem_chars hne sanStem_head sanStem_last sanStem_noDU hfree]

/-- C1 witness: the amended idempotence theorem applied to the sample
URL of the specification. -/
theorem claim1_amended_witness :
    sanStem (str "/products/view/SOME_PDF_File.PDF") ≠ [] ∧
    goContains pdfTok (sanStem (str "/products/view/SOME_PDF_File.PDF")) = false ∧
    urlToFilename (urlToFilename (str "/products/view/SOME_PDF_File.PDF")) =
      urlToFilename (str "/products/view/SOME_PDF_File.PDF") :=
  ⟨by decide, by decide,
    claim1_sanitizer_idempotent_amended (str "/products/view/SOME_PDF_File.PDF")
      (by decide) (by decide)⟩

theorem takeWhile_append_all {α : Type} {p : α → Bool} :
    ∀ {a b : List α}, (∀ c ∈ a, p c = true) → (a ++ b).takeWhile p = a ++ b.takeWhile p := by
  intro a b
  induction a with
  | nil => intro _; rfl
  | cons x xs ih =>
    intro h
    rw [List.cons_append, List.takeWhile_cons, h x (List.mem_cons_self _ _), List.cons_append]
    simp only [ih fun c hc => h c (List.mem_cons_of_mem _ hc), if_true]

theorem toNat_charOfNat_lower {k : Nat} (h1 : 97 ≤ k) (h2 : k ≤ 122) :
    (Char.ofNat k).toNat = k := by
  have hv : Nat.isValidChar k := Or.inl (by omega)
  unfold Char.ofNat
  rw [dif_pos hv]
  rfl

theorem lowerChar_ne_slash {a : Char} (h : a ≠ '/') : lowerChar a ≠ '/' := by
  unfold lowerChar
  split
  · rename_i hcond
    intro he
    have hk : (Char.ofNat (a.toNat + 32)).toNat = a.toNat + 32 :=
      toNat_charOfNat_lower (by omega) (by omega)
    rw [he] at hk
    have h47 : ('/' : Char).toNat = 47 := rfl
    omega
  · exact h

theorem base_append_of_no_slash {d n : List Char} (hne : n ≠ []) (hns : '/' ∉ n) :
    getFilename (d ++ '/' :: n) = n := by
  unfold getFilename
  rw [if_neg (by simp)]
  have e1 : stripTrailSlashes (d ++ '/' :: n) = d ++ '/' :: n := by
    unfold stripTrailSlashes
    rw [dropWhile_head_false, List.reverse_reverse]
    intro a ha
    rw [List.head?_reverse, List.getLast?_append_cons] at ha
    rcases n with _ | ⟨b, bs⟩
    · exact absurd rfl hne
    · rw [List.getLast?_cons_cons] at ha
      simp only [decide_eq_false_iff_not]
      intro he
      exact hns (he ▸ List.mem_of_mem_getLast? ha)
  simp only [e1]
  rw [if_neg (by simp)]
  unfold afterLastSlash
  rw [List.reverse_append, List.reverse_cons, List.append_assoc, List.singleton_append,
    takeWhile_append_all fun c hc => ?_, List.takeWhile_cons]
  · simp only [decide_eq_true_eq]
    rw [if_neg (by simp)]
    simp
  · rw [List.mem_reverse] at hc
    simp only [decide_eq_true_eq]
    intro he
    exact hns (he ▸ hc)

theorem sanStem_dir_inv {d1 d2 n : List Char} (hne : n ≠ []) (hns : '/' ∉ n) :
    sanStem (d1 ++ '/' :: n) = sanStem (d2 ++ '/' :: n) := by
  have key : ∀ d : List Char, sanStem (d ++ '/' :: n) =
      removePdf (trimUnderscores (collapseGo false (mapNonAlnum (toLowerGo n)))) := by
    intro d
    unfold sanStem
    have hsplit : toLowerGo (d ++ '/' :: n) = toLowerGo d ++ '/' :: toLowerGo n := by
      unfold toLowerGo
      rw [List.map_append, List.map_cons, show lowerChar '/' = '/' from by decide]
    rw [hsplit, base_append_of_no_slash (by simp [toLowerGo, hne]) ?_]
    intro hmem
    rcases List.mem_map.1 hmem with ⟨a, ha, heq⟩
    have hane : a ≠ '/' := fun he => hns (he ▸ ha)
    exact lowerChar_ne_slash hane heq
  rw [key d1, key d2]

theorem urlToFilename_dir_inv {d1 d2 n : List Char} (hne : n ≠ []) (hns : '/' ∉ n) :
    urlToFilename (d1 ++ '/' :: n) = urlToFilename (d2 ++ '/' :: n) := by
  rw [urlToFilename_eq, urlToFilename_eq, sanStem_dir_inv hne hns]

theorem fsLookup_cons (q v : List Char) (rest : FS) (p : List Char) :
    fsLookup ((q, v) :: rest) p = if q = p then some v else fsLookup rest p := rfl

theorem fileExists_false_iff {fs : FS} {p : List Char} :
    fileExists fs p = false ↔ fsLookup fs p = none := by
  unfold fileExists
  cases fsLookup fs p <;> simp

/-- C6: when the target file already exists, `downloadPDF` returns the
skip result, leaves the filesystem unchanged, and its result does not
depend on the HTTP oracle at all (no network request is issued). -/
theorem claim6_skip_without_network (fetch fetch' : List Char → Option HTTPResponse)
    (fs : FS) (url outputDir : List Char)
    (h : fileExists fs (goJoin outputDir (urlToFilename url)) = true) :
    downloadPDF fetch fs url outputDir = (false, fs) ∧
    downloadPDF fetch fs url outputDir = downloadPDF fetch' fs url outputDir := by
  have h' : fileExists fs (goJoin outputDir (toLowerGo (urlToFilename url))) = true := by
    rw [toLower_urlToFilename]
    exact h
  constructor <;> simp [downloadPDF, h']

/-- C6 witness: the skip theorem applied to a concrete filesystem that
already holds the target file, with two different oracles. -/
theorem claim6_witness :
    fileExists [(goJoin (str "PDFs") (urlToFilename (str "a")), str "X")]
        (goJoin (str "PDFs") (urlToFilename (str "a"))) = true ∧
    downloadPDF (fun _ => none) [(goJoin (str "PDFs") (urlToFilename (str "a")), str "X")]
        (str "a") (str "PDFs") =
      (false, [(goJoin (str "PDFs") (urlToFilename (str "a")), str "X")]) ∧
    downloadPDF (fun _ => none) [(goJoin (str "PDFs") (urlToFilename (str "a")), str "X")]
        (str "a") (str "PDFs") =
      downloadPDF (fun _ => some ⟨200, str "application/pdf", str "Y"⟩)
        [(goJoin (str "PDFs") (urlToFilename (str "a")), str "X")] (str "a") (str "PDFs") := by
  refine ⟨by decide, ?_, ?_⟩
  · exact (claim6_skip_without_network (fun _ => none)
      (fun _ => some ⟨200, str "application/pdf", str "Y"⟩) _ _ _ (by decide)).1
  · exact (claim6_skip_without_network (fun _ => none)
      (fun _ => some ⟨200, str "application/pdf", str "Y"⟩) _ _ _ (by decide)).2

/-- C7: a response whose content type matches neither accepted pattern
is rejected regardless of status, and a 200 response with an empty body
is rejected; in both cases `downloadPDF` returns failure and the
filesystem is unchanged (no file is written), affecting only this URL. -/
theorem claim7_reject_invalid_content (fetch : List Char → Option HTTPResponse)
    (fs : FS) (url outputDir : List Char) (resp : HTTPResponse)
    (hf : fetch url = some resp)
    (hcase : ctOK resp.contentType = false ∨ (resp.status = 200 ∧ resp.body = [])) :
    downloadPDF fetch fs url outputDir = (false, fs) := by
  by_cases hex : fileExists fs (goJoin outputDir (toLowerGo (urlToFilename url))) = true
  · simp [downloadPDF, hex]
  · rcases hcase with hct | ⟨hst, hb⟩
    · simp [downloadPDF, hex, hf, hct]
    · simp [downloadPDF, hex, hf, hst, hb]

/-- C7 witness: a `text/html` 200 response and a zero-byte
`application/pdf` 200 response are both rejected without writing. -/
theorem claim7_witness :
    ctOK (str "text/html") = false ∧
    downloadPDF (fun _ => some ⟨200, str "text/html", str "<html>"⟩) [] (str "u")
        (str "PDFs") = (false, []) ∧
    downloadPDF (fun _ => some ⟨200, str "application/pdf", str ""⟩) [] (str "u2")
        (str "PDFs") = (false, []) := by
  refine ⟨by decide, ?_, ?_⟩
  · exact claim7_reject_invalid_content _ [] (str "u") (str "PDFs")
      ⟨200, str "text/html", str "<html>"⟩ rfl (Or.inl (by decide))
  · exact claim7_reject_invalid_content _ [] (str "u2") (str "PDFs")
      ⟨200, str "application/pdf", str ""⟩ rfl (Or.inr ⟨rfl, rfl⟩)

theorem downloadPDF_success_inv {fetch : List Char → Option HTTPResponse} {fs : FS}
    {url outputDir : List Char} {fs' : FS}
    (h : downloadPDF fetch fs url outputDir = (true, fs')) :
    fileExists fs (goJoin outputDir (toLowerGo (urlToFilename url))) = false ∧
    ∃ resp, fetch url = some resp ∧ resp.status = 200 ∧ ctOK resp.contentType = true ∧
      resp.body ≠ [] ∧
      fs' = fsPut fs (goJoin outputDir (toLowerGo (urlToFilename url))) resp.body := by
  simp only [downloadPDF] at h
  split at h
  · simp at h
  · rename_i hex
    split at h
    · simp at h
    · rename_i resp hf
      split at h
      · simp at h
      · rename_i hst
        split at h
        · simp at h
        · rename_i hct
          split at h
          · simp at h
          · rename_i hlen
            rw [Prod.mk.injEq] at h
            refine ⟨Bool.eq_false_iff.mpr hex, resp, hf, not_ne_iff.1 hst, not_not.1 hct,
              fun hb => hlen (by rw [hb]; rfl), h.2.symm⟩

/-- C10: `downloadPDF` never overwrites: when a file already exists at
the target path the call returns without touching the filesystem; and a
successful call creates exactly one new file, at
`filepath.Join(outputDir, urlToFilename(finalURL))`, which was absent
before, now holds the response body, and every other path is
untouched. -/
theorem claim10_no_overwrite_frame (fetch : List Char → Option HTTPResponse)
    (fs : FS) (url outputDir : List Char) :
    (fileExists fs (goJoin outputDir (urlToFilename url)) = true →
      downloadPDF fetch fs url outputDir = (false, fs)) ∧
    (∀ fs' : FS, downloadPDF fetch fs url outputDir = (true, fs') →
      fsLookup fs (goJoin outputDir (urlToFilename url)) = none ∧
      ∃ resp, fetch url = some resp ∧
        fs' = fsPut fs (goJoin outputDir (urlToFilename url)) resp.body ∧
        fsLookup fs' (goJoin outputDir (urlToFilename url)) = some resp.body ∧
        ∀ p, p ≠ goJoin outputDir (urlToFilename url) → fsLookup fs' p = fsLookup fs p) := by
  have hpath : goJoin outputDir (toLowerGo (urlToFilename url)) =
      goJoin outputDir (urlToFilename url) := by
    rw [toLower_urlToFilename]
  constructor
  · intro h
    have h' : fileExists fs (goJoin outputDir (toLowerGo (urlToFilename url))) = true := by
      rw [hpath]
      exact h
    simp [downloadPDF, h']
  · intro fs' h
    obtain ⟨hex, resp, hf, _, _, _, hfs⟩ := downloadPDF_success_inv h
    rw [hpath] at hex hfs
    refine ⟨fileExists_false_iff.1 hex, resp, hf, hfs, ?_, ?_⟩
    · rw [hfs]
      unfold fsPut
      rw [fsLookup_cons, if_pos rfl]
    · intro p hp
      rw [hfs]
      unfold fsPut
      rw [fsLookup_cons, if_neg (Ne.symm hp)]

/-- C10 witness: both parts of the frame theorem exercised on concrete
states: an existing file is not overwritten, and a successful download
creates exactly the target file. -/
theorem claim10_witness :
    (fileExists [(goJoin (str "PDFs") (urlToFilename (str "u")), str "OLD")]
        (goJoin (str "PDFs") (urlToFilename (str "u"))) = true ∧
      downloadPDF (fun _ => some ⟨200, str "application/pdf", str "NEW"⟩)
        [(goJoin (str "PDFs") (urlToFilename (str "u")), str "OLD")] (str "u") (str "PDFs") =
        (false, [(goJoin (str "PDFs") (urlToFilename (str "u")), str "OLD")])) ∧
    (downloadPDF (fun _ => some ⟨200, str "application/pdf", str "NEW"⟩) [] (str "u")
        (str "PDFs") = (true, [(goJoin (str "PDFs") (urlToFilename (str "u")), str "NEW")]) ∧
      fsLookup [] (goJoin (str "PDFs") (urlToFilename (str "u"))) = none) := by
  constructor
  · refine ⟨by decide, ?_⟩
    exact (claim10_no_overwrite_frame (fun _ => some ⟨200, str "application/pdf", str "NEW"⟩)
      [(goJoin (str "PDFs") (urlToFilename (str "u")), str "OLD")] (str "u") (str "PDFs")).1
      (by decide)
  · refine ⟨by decide, ?_⟩
    exact ((claim10_no_overwrite_frame (fun _ => some ⟨200, str "application/pdf", str "NEW"⟩)
      [] (str "u") (str "PDFs")).2
      [(goJoin (str "PDFs") (urlToFilename (str "u")), str "NEW")] (by decide)).1

/-- C4: two URLs differing only in their directory part but sharing the
same last path segment map to the same Target Filename; downloading the
first (with a valid PDF response) creates the file, and downloading the
second is then skipped because the file already exists — exactly one
file is written. -/
theorem claim4_basename_collision (d1 d2 n outputDir : List Char)
    (fetch : List Char → Option HTTPResponse) (fs : FS) (resp : HTTPResponse)
    (hne : n ≠ []) (hns : '/' ∉ n)
    (hf : fetch (d1 ++ '/' :: n) = some resp)
    (hst : resp.status = 200) (hct : ctOK resp.contentType = true) (hb : resp.body ≠ [])
    (hnew : fileExists fs (goJoin outputDir (urlToFilename (d1 ++ '/' :: n))) = false) :
    urlToFilename (d1 ++ '/' :: n) = urlToFilename (d2 ++ '/' :: n) ∧
    downloadPDF fetch fs (d1 ++ '/' :: n) outputDir =
      (true, fsPut fs (goJoin outputDir (urlToFilename (d1 ++ '/' :: n))) resp.body) ∧
    downloadPDF fetch
      (fsPut fs (goJoin outputDir (urlToFilename (d1 ++ '/' :: n))) resp.body)
      (d2 ++ '/' :: n) outputDir =
      (false, fsPut fs (goJoin outputDir (urlToFilename (d1 ++ '/' :: n))) resp.body) := by
  have hcol := @urlToFilename_dir_inv d1 d2 n hne hns
  refine ⟨hcol, ?_, ?_⟩
  · have hex : fileExists fs
        (goJoin outputDir (toLowerGo (urlToFilename (d1 ++ '/' :: n)))) = false := by
      rw [toLower_urlToFilename]
      exact hnew
    have hlen : resp.body.length ≠ 0 := by
      intro h0
      exact hb (List.length_eq_zero.1 h0)
    simp [downloadPDF, hex, hnew, hf, hst, hct, hlen, toLower_urlToFilename]
  · have hex2 : fileExists
        (fsPut fs (goJoin outputDir (urlToFilename (d1 ++ '/' :: n))) resp.body)
        (goJoin outputDir (toLowerGo (urlToFilename (d2 ++ '/' :: n)))) = true := by
      rw [toLower_urlToFilename, ← hcol]
      unfold fileExists fsPut
      rw [fsLookup_cons, if_pos rfl]
      rfl
    simp [downloadPDF, hex2]

/-- C4 witness: the collision theorem at the specification's example
pair `/a/doc.pdf`, `/b/doc.pdf`, with a concrete valid response. -/
theorem claim4_witness :
    (str "doc.pdf" ≠ [] ∧ '/' ∉ str "doc.pdf" ∧
      (fun _ : List Char => some (⟨200, str "application/pdf", str "DATA"⟩ : HTTPResponse))
          (str "/a" ++ '/' :: str "doc.pdf") =
        some ⟨200, str "application/pdf", str "DATA"⟩ ∧
      fileExists ([] : FS)
        (goJoin (str "PDFs") (urlToFilename (str "/a" ++ '/' :: str "doc.pdf"))) = false) ∧
    urlToFilename (str "/a" ++ '/' :: str "doc.pdf") =
      urlToFilename (str "/b" ++ '/' :: str "doc.pdf") := by
  refine ⟨⟨by decide, by decide, rfl, by decide⟩, ?_⟩
  exact (claim4_basename_collision (str "/a") (str "/b") (str "doc.pdf") (str "PDFs")
    (fun _ => some ⟨200, str "application/pdf", str "DATA"⟩) []
    ⟨200, str "application/pdf", str "DATA"⟩
    (by decide) (by decide) rfl rfl (by decide) (by decide) (by decide)).1

theorem removeDupGo_eq_firstOccGo :
    ∀ (l check pre : List String), (∀ a, a ∈ check ↔ a ∈ pre) →
      removeDupGo check l = firstOccGo pre l := by
  intro l
  induction l with
  | nil => intro _ _ _; rfl
  | cons x xs ih =>
    intro check pre h
    unfold removeDupGo firstOccGo
    by_cases hx : x ∈ check
    · rw [if_pos hx, if_pos ((h x).1 hx)]
      apply ih
      intro a
      rw [h a]
      constructor
      · intro ha
        exact List.mem_append.2 (Or.inl ha)
      · intro ha
        rcases List.mem_append.1 ha with ha' | ha'
        · exact ha'
        · rw [List.mem_singleton] at ha'
          rw [ha', ← h x]
          exact hx
    · rw [if_neg hx, if_neg fun hc => hx ((h x).2 hc)]
      congr 1
      apply ih
      intro a
      rw [List.mem_cons, List.mem_append, List.mem_singleton, h a, or_comm]

theorem firstOccGo_sublist : ∀ (l pre : List String), (firstOccGo pre l).Sublist l := by
  intro l
  induction l with
  | nil => intro _; exact List.Sublist.refl _
  | cons x xs ih =>
    intro pre
    unfold firstOccGo
    by_cases hx : x ∈ pre
    · rw [if_pos hx]
      exact (ih (pre ++ [x])).cons x
    · rw [if_neg hx]
      exact (ih (pre ++ [x])).cons₂ x

theorem mem_firstOccGo :
    ∀ (l pre : List String) (a : String), a ∈ firstOccGo pre l ↔ (a ∈ l ∧ a ∉ pre) := by
  intro l
  induction l with
  | nil => intro pre a; simp [firstOccGo]
  | cons x xs ih =>
    intro pre a
    unfold firstOccGo
    by_cases hx : x ∈ pre
    · rw [if_pos hx, ih]
      constructor
      · intro ⟨h1, h2⟩
        exact ⟨List.mem_cons_of_mem _ h1, fun hp => h2 (List.mem_append.2 (Or.inl hp))⟩
      · intro ⟨h1, h2⟩
        rcases List.mem_cons.1 h1 with h1' | h1'
        · exact absurd (h1' ▸ hx) h2
        · refine ⟨h1', fun hp => ?_⟩
          rcases List.mem_append.1 hp with hp' | hp'
          · exact h2 hp'
          · rw [List.mem_singleton] at hp'
            exact h2 (hp' ▸ hx)
    · rw [if_neg hx]
      constructor
      · intro h1
        rcases List.mem_cons.1 h1 with h1' | h1'
        · exact ⟨h1' ▸ List.mem_cons_self _ _, h1' ▸ hx⟩
        · obtain ⟨ha, hb⟩ := (ih (pre ++ [x]) a).1 h1'
          exact ⟨List.mem_cons_of_mem _ ha, fun hp => hb (List.mem_append.2 (Or.inl hp))⟩
      · intro ⟨h1, h2⟩
        by_cases hax : a = x
        · exact hax ▸ List.mem_cons_self _ _
        · rcases List.mem_cons.1 h1 with h1' | h1'
          · exact absurd h1' hax
          · refine List.mem_cons_of_mem _ ((ih (pre ++ [x]) a).2 ⟨h1', fun hp => ?_⟩)
            rcases List.mem_append.1 hp with hp' | hp'
            · exact h2 hp'
            · rw [List.mem_singleton] at hp'
              exact hax hp'

theorem firstOccGo_nodup : ∀ (l pre : List String), (firstOccGo pre l).Nodup := by
  intro l
  induction l with
  | nil => intro _; exact List.nodup_nil
  | cons x xs ih =>
    intro pre
    unfold firstOccGo
    by_cases hx : x ∈ pre
    · rw [if_pos hx]
      exact ih _
    · rw [if_neg hx]
      refine List.nodup_cons.2 ⟨?_, ih _⟩
      intro hmem
      obtain ⟨_, hb⟩ := (mem_firstOccGo xs (pre ++ [x]) x).1 hmem
      exact hb (List.mem_append.2 (Or.inr (List.mem_singleton.2 rfl)))

theorem firstOccGo_id :
    ∀ (l pre : List String), l.Nodup → (∀ a ∈ l, a ∉ pre) → firstOccGo pre l = l := by
  intro l
  induction l with
  | nil => intro _ _ _; rfl
  | cons x xs ih =>
    intro pre hnd hout
    unfold firstOccGo
    rw [if_neg (hout x (List.mem_cons_self _ _))]
    congr 1
    apply ih _ (List.nodup_cons.1 hnd).2
    intro a ha hp
    rcases List.mem_append.1 hp with hp' | hp'
    · exact hout a (List.mem_cons_of_mem _ ha) hp'
    · rw [List.mem_singleton] at hp'
      exact (List.nodup_cons.1 hnd).1 (hp' ▸ ha)

/-- C5: `removeDuplicatesFromSlice` equals the declarative
first-occurrences subsequence (keep an element exactly when it does not
occur earlier, under exact string equality), it is an order-preserving
sublist of its input without duplicates, keeps exactly the members of
the input, and is idempotent. -/
theorem claim5_dedup_first_occurrences :
    (∀ l : List String, removeDuplicatesFromSlice l = firstOccurrencesSpec l) ∧
    (∀ l : List String, (removeDuplicatesFromSlice l).Sublist l) ∧
    (∀ l : List String, (removeDuplicatesFromSlice l).Nodup) ∧
    (∀ (l : List String) (a : String), a ∈ removeDuplicatesFromSlice l ↔ a ∈ l) ∧
    (∀ l : List String,
      removeDuplicatesFromSlice (removeDuplicatesFromSlice l) = removeDuplicatesFromSlice l) := by
  have key : ∀ l : List String, removeDuplicatesFromSlice l = firstOccGo [] l := by
    intro l
    exact removeDupGo_eq_firstOccGo l [] [] fun a => Iff.rfl
  refine ⟨key, ?_, ?_, ?_, ?_⟩
  · intro l
    rw [key]
    exact firstOccGo_sublist l []
  · intro l
    rw [key]
    exact firstOccGo_nodup l []
  · intro l a
    rw [key, mem_firstOccGo]
    simp
  · intro l
    rw [key, key]
    apply firstOccGo_id
    · exact firstOccGo_nodup l []
    · intro a _
      exact List.not_mem_nil a

theorem extract_eq_positions :
    ∀ s : List Char,
      extractPDFUrls s = (List.range s.length).filterMap fun i => tryMatchAt (s.drop i) := by
  intro s
  induction s with
  | nil => rfl
  | cons c rest ih =>
    rw [List.length_cons, List.range_succ_eq_map, List.filterMap_cons, List.filterMap_map]
    have hcomp : ((fun i => tryMatchAt ((c :: rest).drop i)) ∘ Nat.succ) =
        fun i => tryMatchAt (rest.drop i) := by
      funext i
      simp only [Function.comp_apply, List.drop_succ_cons]
    rw [hcomp, List.drop_zero]
    show (match tryMatchAt (c :: rest) with
      | some v => v :: extractPDFUrls rest
      | none => extractPDFUrls rest) = _
    rcases h : tryMatchAt (c :: rest) with _ | v
    · exact ih
    · rw [ih]

/-- C3 counterexample: the claim describes the captured value only as
"containing no double-quote and ending in `.pdf`", which admits the
value `".pdf"` itself; the regex `href="([^"]+\.pdf)"` additionally
requires at least one character before the suffix, so on
`href=".pdf"` the extractor returns nothing while the claim's
description yields `[".pdf"]`. -/
theorem claim3_extractor_counterexample :
    extractPDFUrls (str "href=\".pdf\"") ≠ claimPDFCaptures (str "href=\".pdf\"") ∧
    extractPDFUrls (str "href=\".pdf\"") = [] ∧
    claimPDFCaptures (str "href=\".pdf\"") = [str ".pdf"] := by
  decide

/-- C3 (amended): `extractPDFUrls` returns exactly the ordered sequence
of capture groups of the occurrences of `href="<value>"` whose value
contains no double-quote, ends in `.pdf`, and has at least one character
before that suffix — and nothing else; on empty input it returns the
empty sequence (and it is a total function, so there is no error
condition). -/
theorem claim3_extractor_amended :
    (∀ s : List Char, extractPDFUrls s = specPDFCaptures s) ∧
    extractPDFUrls [] = [] :=
  ⟨fun s => extract_eq_positions s, rfl⟩

/-- C2 is a code bug, not a property of the code: on a failed
`http.Get`, `getDataFromURL` logs the error and then dereferences
`response.Body` on the nil response — a panic that terminates the whole
program.  This theorem evaluates the model at such a failing seed: the
panic propagates out of the seed-fetch loop, so the second seed is never
fetched and the run halts, contradicting the claim that a fetch failure
is only logged and the loop continues. -/
theorem claim2_fetch_failure_panics :
    getDataFromURL failingFirstFetch (str "https://www.nclonline.com/products/sds_alpha") =
      Except.error GoPanic.nilPointerDereference ∧
    fetchSeedPages failingFirstFetch
        [str "https://www.nclonline.com/products/sds_alpha",
         str "https://www.nclonline.com/products/view/ASAP"] =
      Except.error GoPanic.nilPointerDereference :=
  ⟨rfl, rfl⟩
